import Mathlib

/-!
Shallow embedding of the wordle-solver engine
(src/wordle_solver/wordle_solver.py) for checking the specification claims
about constraint tracking, filtering, ranking and the game loop.

Modelling conventions:
* Python strings are `List Char`; words and feedback strings alike.
* Python sets of letters are `List Char` with membership-based operations;
  iteration order of a Python set is never observable in the claims (only
  membership, subset and overlap tests are).
* Python dicts keep insertion order; where a dict order is observable
  (ranking), the embedding builds association lists in the same insertion
  order as the source builds the dict.
* The regular-expression list re_list = ["^", cell_1, ..., cell_n, "$"] is
  modelled by `cells : List PosC` holding the interior cells; the "^"/"$"
  sentinels are handled at the ends of the index range, as in the source.
  A cell is "." (unconstrained), a single letter (fixed), or a character
  class "[^...]" (forbid).  The str(set) string surgery in the source
  injects the punctuation characters braces, quote, comma and space into
  the class string; those characters cannot occur in the lowercase words
  the solver operates on, so the embedding tracks the letter content of
  the class.
* Fallible Python operations (IndexError, ValueError, and the AnswerFound /
  OutOfGuesses control-flow exceptions) are `Except String` results with a
  message naming the Python condition.
-/

deriving instance DecidableEq for Except

abbrev Word := List Char

/-- One interior cell of the positional pattern re_list. -/
inductive PosC where
  | unconstrained
  | fixed (c : Char)
  | forbid (s : List Char)
deriving DecidableEq, Repr

/-- The attributes of WordleSolver that the claims exercise. -/
structure SolverState where
  answer : Word
  max_guesses : Nat
  top : Nat
  relax_repeats : Bool
  exclude_letters : List Char
  include_letters : List Char
  word_length : Nat
  current_guess : Word
  cells : List PosC
  wordlist : List Word
  attempt : Nat
  match_pattern : List Char
  character_frequency : List (Char × Nat)
  word_frequency : List (Word × Nat)
deriving DecidableEq, Repr

/-- Python set union with a singleton: add a letter if absent. -/
def sinsert (c : Char) (l : List Char) : List Char :=
  if c ∈ l then l else c :: l

/-- Python set.discard: drop a letter. -/
def sdiscard (c : Char) (l : List Char) : List Char :=
  l.filter fun d => decide (d ≠ c)

/-- WordleSolver.load_wordlist: lowercase, deduplicate (list(set(...)), whose
order is not observable through the claims), keep words of the configured
length. -/
def load_wordlist (word_length : Nat) (raw : List Word) : List Word :=
  ((raw.map fun w => w.map Char.toLower).dedup).filter fun w =>
    decide (w.length = word_length)

/-- One inner step of WordleSolver.generate_frequencies: count one letter. -/
def bumpChar (cf : List (Char × Nat)) (c : Char) : List (Char × Nat) :=
  if (cf.find? fun p => decide (p.1 = c)).isSome then
    cf.map fun p => if p.1 = c then (p.1, p.2 + 1) else p
  else cf ++ [(c, 1)]

/-- WordleSolver.generate_frequencies: count letter occurrences across the word
list.  The debug-only re-sorting in the source does not change the mapping. -/
def generate_frequencies (wl : List Word) : List (Char × Nat) :=
  wl.foldl (fun cf w => w.foldl bumpChar cf) []

/-- Lookup in the character-frequency table.  The source indexes the dict
directly (KeyError on a miss); in every configuration the claims exercise the
table is generated from the word list itself and covers all its characters, so
the default is never consulted. -/
def freqLookup (cf : List (Char × Nat)) (c : Char) : Nat :=
  ((cf.find? fun p => decide (p.1 = c)).map Prod.snd).getD 0

/-- Python word_frequency.get(w, 0). -/
def wfLookupD (wf : List (Word × Nat)) (w : Word) : Nat :=
  ((wf.find? fun p => decide (p.1 = w)).map Prod.snd).getD 0

/-- Stable descending insertion: x goes before the first entry whose key is no
larger, hence after earlier entries with an equal key. -/
def insertDesc {α : Type} (key : α → Nat) (x : α) : List α → List α
  | [] => [x]
  | y :: ys => if key y ≤ key x then x :: y :: ys else y :: insertDesc key x ys

/-- Stable descending sort (insertion sort).  Python sorted(..., reverse=True)
is a stable descending sort, and a stable sort is uniquely determined by the
key and the input order, so this is the same function; stability, sortedness
and permutation are proved below. -/
def insertionSortDesc {α : Type} (key : α → Nat) : List α → List α
  | [] => []
  | x :: xs => insertDesc key x (insertionSortDesc key xs)

/-- WordleSolver.sort_by_weight: words with the highest weight first; entries
with equal weight keep dict (insertion) order because Python sorted is
stable. -/
def sort_by_weight (items : List (Word × Nat)) : List Word :=
  (insertionSortDesc (fun p => p.2) items).map Prod.fst

/-- len(set(word)): the number of distinct letters of a word. -/
def distinct_letters (w : Word) : Nat := w.dedup.length

/-- WordleSolver.limit_repeats: the dict diff_ltrs is built in guess order, so
the second sort is a full stable pass over the primary order.  Its keys are
unique because the callers pass deduplicated word lists. -/
def limit_repeats (relax : Bool) (word_length : Nat) (mp : List Char)
    (guesses : List Word) : List Word :=
  if relax = true ∧ ((word_length : Int) - (mp.count '!' : Int) < 3) then guesses
  else sort_by_weight (guesses.map fun w => (w, distinct_letters w))

/-- WordleSolver.get_character_weights: summed letter frequencies, in word-list
order. -/
def get_character_weights (cf : List (Char × Nat)) (wl : List Word) :
    List (Word × Nat) :=
  wl.map fun w => (w, (w.map (freqLookup cf)).sum)

/-- WordleSolver.get_word_frequencies: each remaining word with its table
frequency (default 0), in word-list order. -/
def get_word_frequencies (wf : List (Word × Nat)) (wl : List Word) :
    List (Word × Nat) :=
  wl.map fun w => (w, wfLookupD wf w)

/-- WordleSolver.apply_frequency_metric: a placeholder that just returns more
frequent words first. -/
def apply_frequency_metric (w_freq : List (Word × Nat)) : List Word :=
  sort_by_weight w_freq

/-- WordleSolver.get_best_guesses: word-frequency ranking when a table is
loaded, otherwise character-frequency ranking followed by the repeat-limiting
pass; raises ValueError("Out of possible words!") when nothing remains. -/
def get_best_guesses (st : SolverState) : Except String (List Word) :=
  let guesses :=
    if st.word_frequency ≠ [] then
      apply_frequency_metric (get_word_frequencies st.word_frequency st.wordlist)
    else
      limit_repeats st.relax_repeats st.word_length st.match_pattern
        (sort_by_weight (get_character_weights st.character_frequency st.wordlist))
  if guesses.length < 1 then .error "Out of possible words!"
  else .ok (guesses.take st.top)

/-- Position-indexed worker for WordleSolver.calculate_response: the source
iterates over the guess and indexes the answer (IndexError past its end).
A letter in the correct place gives a bang, a letter occurring anywhere in the
answer gives a question mark, anything else a dot; no duplicate-letter count
limiting is performed. -/
def crGo (answer : Word) : List Char → Nat → Except String (List Char)
  | [], _ => .ok []
  | c :: rest, idx =>
    match answer[idx]? with
    | none => .error "IndexError"
    | some a =>
      match crGo answer rest (idx + 1) with
      | .error e => .error e
      | .ok rs =>
        .ok ((if c = a then '!' else if c ∈ answer then '?' else '.') :: rs)

/-- WordleSolver.calculate_response: store the computed response string in
match_pattern. -/
def calculate_response (st : SolverState) : Except String SolverState :=
  match crGo st.answer st.current_guess 0 with
  | .error e => .error e
  | .ok fb => .ok {st with match_pattern := fb}

/-- Whether some cell already fixes the letter c (Python: c in self.re_list;
the sentinels "^", "$", "." and the class strings only collide with characters
that cannot occur in a lowercase word). -/
def anyFixed (cells : List PosC) (c : Char) : Bool :=
  cells.any fun cl => decide (cl = PosC.fixed c)

/-- One iteration of the update_patterns loop, at absolute position idx, with
response character ch and guess character c. -/
def upStep (st : SolverState) (idx : Nat) (ch c : Char) :
    Except String SolverState :=
  match st.cells[idx]? with
  | none =>
    -- Position word_length holds the "$" sentinel of re_list: it fails both
    -- the class test and the dot test, so the source skips it; past it the
    -- source raises IndexError.
    if idx = st.cells.length then .ok st else .error "IndexError"
  | some cell =>
    match cell with
    | PosC.fixed _ => .ok st  -- we know what letter it is; keep going
    | _ =>
      if ch = '!' then
        .ok {st with cells := st.cells.set idx (PosC.fixed c),
                     include_letters := sdiscard c st.include_letters}
      else if ch = '?' then
        let ns : List Char :=
          match cell with
          | PosC.unconstrained => [c]
          | PosC.forbid s => if c ∈ s then s else c :: s
          | PosC.fixed _ => [c]  -- unreachable: the fixed case returned above
        let cells2 := st.cells.set idx (PosC.forbid ns)
        let inc2 := if anyFixed cells2 c then st.include_letters
                    else sinsert c st.include_letters
        .ok {st with cells := cells2, include_letters := inc2}
      else if ch = '.' then
        .ok {st with exclude_letters := sinsert c st.exclude_letters}
      else
        .error "ValueError: response character"

/-- The update_patterns loop from position idx on, over the remaining response
characters. -/
def upGo : SolverState → List Char → Nat → Except String SolverState
  | st, [], _ => .ok st
  | st, ch :: rest, idx =>
    match st.current_guess[idx]? with
    | none => .error "IndexError"
    | some c =>
      match upStep st idx ch c with
      | .error e => .error e
      | .ok st2 => upGo st2 rest (idx + 1)

/-- WordleSolver.update_patterns: fold the current response string into the
positional cells and the include/exclude letter sets. -/
def update_patterns (st : SolverState) : Except String SolverState :=
  upGo st st.match_pattern 0

/-- First stage of WordleSolver.apply_patterns: the include/exclude letter
tests, with the same branch structure as the source loop body. -/
def stage1keep (ex inc : List Char) (w : Word) : Bool :=
  if (!ex.isEmpty) && ex.any (fun c => decide (c ∈ w)) then false
  else if !inc.isEmpty then inc.all fun c => decide (c ∈ w)
  else true

/-- What one interior regex cell matches. -/
def cellMatch : PosC → Char → Bool
  | PosC.unconstrained, _ => true
  | PosC.fixed c, a => decide (a = c)
  | PosC.forbid s, a => decide (a ∉ s)

/-- The anchored positional regex ^ cell_1 ... cell_n $ as a predicate: right
length and a pointwise cell match. -/
def regexMatch (cells : List PosC) (w : Word) : Bool :=
  decide (w.length = cells.length) && (List.zip cells w).all fun p => cellMatch p.1 p.2

/-- WordleSolver.apply_patterns: letter-set stage, then the positional regex,
then list(set(...)) (modelled by dedup; only membership is observable
afterwards). -/
def apply_patterns (st : SolverState) : SolverState :=
  let filtered := st.wordlist.filter fun w =>
    stage1keep st.exclude_letters st.include_letters w
  let updated := (filtered.filter fun w => regexMatch st.cells w).dedup
  {st with wordlist := updated}

/-- WordleSolver.remove_guess: Python list.remove drops the first occurrence
and raises ValueError when the guess is absent. -/
def remove_guess (st : SolverState) : Except String SolverState :=
  if st.current_guess ∈ st.wordlist then
    .ok {st with wordlist := st.wordlist.erase st.current_guess}
  else .error "ValueError: not in list"

/-- WordleSolver.test_if_complete.  AnswerFound and OutOfGuesses are exceptions
in the source; both travel on the error channel here, AnswerFound being the
successful-termination signal that main_loop catches. -/
def test_if_complete (st : SolverState) : Except String SolverState :=
  if st.match_pattern = List.replicate st.word_length '!' then .error "AnswerFound"
  else
    let st2 := {st with attempt := st.attempt + 1}
    if st2.max_guesses ≤ st2.attempt then .error "OutOfGuesses"
    else .ok st2

/-- WordleSolver.get_guess_and_response.  The two interactive prompts are
external collaborators; reaching one is modelled as an input request on the
error channel (the claims only exercise the automated path, which avoids
both). -/
def get_guess_and_response (st : SolverState) : Except String SolverState :=
  if st.current_guess = [] then .error "input: guess"
  else if st.answer = [] then .error "input: response"
  else calculate_response st

/-- WordleSolver.loop_once: response, termination test, removal of the played
guess, constraint update, filtering, ranking, next guess. -/
def loop_once (st : SolverState) : Except String SolverState :=
  match get_guess_and_response st with
  | .error e => .error e
  | .ok s1 =>
    match test_if_complete s1 with
    | .error e => .error e
    | .ok s2 =>
      match remove_guess s2 with
      | .error e => .error e
      | .ok s3 =>
        match update_patterns s3 with
        | .error e => .error e
        | .ok s4 =>
          let s5 := apply_patterns s4
          match get_best_guesses s5 with
          | .error e => .error e
          | .ok best =>
            if s5.answer ≠ [] then
              match best with
              | [] => .error "IndexError"
              | g :: _ => .ok {s5 with current_guess := g}
            else .ok {s5 with current_guess := []}

/-- The engine state as WordleSolver.__init__ builds it before the
initial-guess and word-frequency steps: no letter knowledge, unconstrained
cells, attempt 1, an all-dots match_pattern, and an empty word-frequency
table. -/
def mkInitState (L : Nat) (answer initial_guess : Word) (relax : Bool)
    (maxg top : Nat) (wl : List Word) (cf : List (Char × Nat)) : SolverState :=
  { answer := answer, max_guesses := maxg, top := top, relax_repeats := relax,
    exclude_letters := [], include_letters := [], word_length := L,
    current_guess := initial_guess, cells := List.replicate L PosC.unconstrained,
    wordlist := wl, attempt := 1, match_pattern := List.replicate L '.',
    character_frequency := cf, word_frequency := [] }

/-- Choice of the character-frequency table in __init__: a loaded table when a
file was configured, else one generated from the word list. -/
def chosen_char_frequency (ct : Option (List (Char × Nat))) (wl : List Word) :
    List (Char × Nat) :=
  match ct with
  | some t => t
  | none => generate_frequencies wl

/-- The initial-guess and word-frequency tail of WordleSolver.__init__, over
the already-built base state: with the word-frequency table still empty,
derive the initial guess from get_best_guesses when none was configured
(best_guesses[0] is an IndexError when the truncated list is empty), and only
then install the word-frequency table. -/
def solverInitCore (st0 : SolverState) (wt : List (Word × Nat)) :
    Except String SolverState :=
  if st0.current_guess = [] then
    match get_best_guesses st0 with
    | .error e => .error e
    | .ok [] => .error "IndexError"
    | .ok (g :: _) => .ok {st0 with current_guess := g, word_frequency := wt}
  else .ok {st0 with word_frequency := wt}

/-- WordleSolver.__init__ (the claims-relevant tail): load the word list, pick
the character table, then run the initial-guess and word-frequency steps. -/
def solverInit (L : Nat) (raw : List Word) (answer initial_guess : Word)
    (ct : Option (List (Char × Nat))) (wt : List (Word × Nat))
    (relax : Bool) (maxg top : Nat) : Except String SolverState :=
  solverInitCore (mkInitState L answer initial_guess relax maxg top
    (load_wordlist L raw) (chosen_char_frequency ct (load_wordlist L raw))) wt

/-- One constraint-state observation in automated mode: compute the response
for a guess against the configured answer (calculate_response) and fold it into
the constraint state (update_patterns) — exactly the two constraint-bearing
steps of loop_once. -/
def observe_feedback (st : SolverState) (g : Word) : Except String SolverState :=
  match crGo st.answer g 0 with
  | .error e => .error e
  | .ok fb => update_patterns {st with current_guess := g, match_pattern := fb}

/-- Fold a sequence of guesses through observe_feedback. -/
def runFeedbacks : SolverState → List Word → Except String SolverState
  | st, [] => .ok st
  | st, g :: gs =>
    match observe_feedback st g with
    | .error e => .error e
    | .ok st2 => runFeedbacks st2 gs

/-- Semantic soundness of one cell with respect to the letter the answer has at
that position. -/
def CellSound : PosC → Char → Prop
  | PosC.unconstrained, _ => True
  | PosC.fixed c, a => a = c
  | PosC.forbid s, a => a ∉ s

/-- The constraint state never contradicts the configured answer. -/
structure Sound (answer : Word) (st : SolverState) : Prop where
  ans : st.answer = answer
  excl : ∀ c ∈ st.exclude_letters, c ∉ answer
  incl : ∀ c ∈ st.include_letters, c ∈ answer
  sound_cells : List.Forall₂ CellSound st.cells answer

/-! Concrete fixtures used by witnesses and counterexamples. -/

/-- A blank five-letter solver state (no answer, no tables, empty word list). -/
def cexBase : SolverState := mkInitState 5 [] [] false 6 5 [] []

/-- A blank two-letter solver state. -/
def cex2Base : SolverState := mkInitState 2 [] [] false 6 5 [] []

/-- A five-letter guess paired with a two-symbol response string. -/
def ST6 : SolverState :=
  {cexBase with current_guess := "abcde".toList, match_pattern := "??".toList}

/-- First turn of a self-contradictory interactive stream: guess "ab",
response "?." (a present elsewhere, b absent). -/
def ST7 : SolverState :=
  {cex2Base with current_guess := "ab".toList, match_pattern := "?.".toList}

/-- Second turn of the stream: guess "ax", response ".." now claims a is
absent, contradicting the first turn. -/
def c7stream : Except String SolverState :=
  match update_patterns ST7 with
  | .error e => .error e
  | .ok s1 => update_patterns {s1 with current_guess := "ax".toList,
                                       match_pattern := "..".toList}

/-- Automated mode, where the configured guess equals the answer but is not in
the candidate list. -/
def ST10 : SolverState :=
  {cexBase with answer := "abcde".toList, current_guess := "abcde".toList,
                wordlist := ["fghij".toList]}

/-- Automated mode, where the configured guess is absent from the candidate
list and is not the answer. -/
def WIT10 : SolverState :=
  {cexBase with answer := "abcde".toList, current_guess := "abcdf".toList,
                wordlist := ["fghij".toList]}

/-- Automated mode with answer "ab" about to respond to guess "ba". -/
def WIT4 : SolverState :=
  {cex2Base with answer := "ab".toList, current_guess := "ba".toList}

/-- The state WIT4 with the computed response installed. -/
def WIT4R : SolverState := {WIT4 with match_pattern := "??".toList}

/-- Character-frequency mode, relax on, four of five positions solved. -/
def WIT5 : SolverState :=
  {cexBase with relax_repeats := true, match_pattern := "!!!!.".toList,
                wordlist := ["kissy".toList],
                character_frequency := generate_frequencies ["kissy".toList]}

/-- A state whose first cell is fixed to letter a, about to process a response
that touches every position. -/
def WIT2 : SolverState :=
  {cex2Base with cells := [PosC.fixed 'a', PosC.unconstrained],
                 current_guess := "ba".toList, match_pattern := "?!".toList}

/-- The two-guess automated transcript used by the filter-soundness witness. -/
def WIT1 : SolverState := mkInitState 2 "ab".toList [] false 6 5 [] []

/-- The state WIT2 after its response is processed: position 0 was skipped
(already fixed), position 1 became fixed. -/
def WIT2R : SolverState :=
  {WIT2 with cells := [PosC.fixed 'a', PosC.fixed 'a']}

/-- A state whose letter knowledge is self-contradictory: a is recorded both
as present and as absent. -/
def WIT7 : SolverState :=
  {cex2Base with include_letters := ['a'], exclude_letters := ['a'],
                 wordlist := ["ab".toList, "xy".toList]}

/-- The solver state that construction yields for a two-word vocabulary with
no initial guess configured but a word-frequency table supplied. -/
def WIT9R : SolverState :=
  { mkInitState 2 "zz".toList "ab".toList false 6 5
      ["ab".toList, "cd".toList] [('a', 1), ('b', 1), ('c', 1), ('d', 1)] with
    word_frequency := [("zz".toList, 9)] }

/-- The state WIT1 after observing guess "ba" against answer "ab": both
positions carry forbidden sets and both letters are known present. -/
def WIT1R : SolverState :=
  {WIT1 with current_guess := "ba".toList, match_pattern := "??".toList,
             cells := [PosC.forbid ['b'], PosC.forbid ['a']],
             include_letters := ['a', 'b']}

/-! Generic facts about the stable descending insertion sort. -/

theorem insertDesc_perm {α : Type} (key : α → Nat) (x : α) (l : List α) :
    List.Perm (insertDesc key x l) (x :: l) := by
  induction l with
  | nil => simp [insertDesc]
  | cons y ys ih =>
    simp only [insertDesc]
    split
    · exact List.Perm.refl _
    · exact (ih.cons y).trans (List.Perm.swap x y ys)

theorem insertionSortDesc_perm {α : Type} (key : α → Nat) (l : List α) :
    List.Perm (insertionSortDesc key l) l := by
  induction l with
  | nil => simp [insertionSortDesc]
  | cons x xs ih =>
    exact (insertDesc_perm key x (insertionSortDesc key xs)).trans (ih.cons x)

theorem mem_insertDesc {α : Type} (key : α → Nat) (x a : α) (l : List α) :
    a ∈ insertDesc key x l ↔ a = x ∨ a ∈ l := by
  rw [(insertDesc_perm key x l).mem_iff]
  simp

theorem insertDesc_pairwise {α : Type} (key : α → Nat) (x : α) (l : List α)
    (h : l.Pairwise fun a b => key b ≤ key a) :
    (insertDesc key x l).Pairwise fun a b => key b ≤ key a := by
  induction l with
  | nil => simp [insertDesc]
  | cons y ys ih =>
    rw [List.pairwise_cons] at h
    obtain ⟨h1, h2⟩ := h
    simp only [insertDesc]
    split
    · rename_i hxy
      refine List.Pairwise.cons ?_ (List.Pairwise.cons h1 h2)
      intro b hb
      rcases List.mem_cons.mp hb with hb | hb
      · subst hb; exact hxy
      · exact le_trans (h1 b hb) hxy
    · rename_i hxy
      refine List.Pairwise.cons ?_ (ih h2)
      intro b hb
      rcases (mem_insertDesc key x b ys).mp hb with hb | hb
      · subst hb; omega
      · exact h1 b hb

theorem insertionSortDesc_sorted {α : Type} (key : α → Nat) (l : List α) :
    (insertionSortDesc key l).Pairwise fun a b => key b ≤ key a := by
  induction l with
  | nil => simp [insertionSortDesc]
  | cons x xs ih => exact insertDesc_pairwise key x _ ih

theorem insertDesc_filter_key {α : Type} (key : α → Nat) (x : α) (l : List α) (k : Nat) :
    (insertDesc key x l).filter (fun a => decide (key a = k)) =
      (x :: l).filter (fun a => decide (key a = k)) := by
  induction l with
  | nil => simp [insertDesc]
  | cons y ys ih =>
    simp only [insertDesc]
    split
    · rfl
    · rename_i hxy
      by_cases hy : key y = k <;> by_cases hx : key x = k
      · omega
      · simp [List.filter_cons, hy, hx, ih]
      · simp [List.filter_cons, hy, hx, ih]
      · simp [List.filter_cons, hy, hx, ih]

theorem insertionSortDesc_filter_key {α : Type} (key : α → Nat) (l : List α) (k : Nat) :
    (insertionSortDesc key l).filter (fun a => decide (key a = k)) =
      l.filter (fun a => decide (key a = k)) := by
  induction l with
  | nil => simp [insertionSortDesc]
  | cons x xs ih =>
    simp only [insertionSortDesc]
    rw [insertDesc_filter_key]
    simp only [List.filter_cons, ih]

theorem filter_map_fst {f : Word → Nat} {d : Nat} :
    ∀ (l : List (Word × Nat)), (∀ p ∈ l, p.2 = f p.1) →
      (l.map Prod.fst).filter (fun w => decide (f w = d)) =
        (l.filter fun p => decide (p.2 = d)).map Prod.fst := by
  intro l
  induction l with
  | nil => simp
  | cons p ps ih =>
    intro h
    have hp : p.2 = f p.1 := h p (by simp)
    have hrest : ∀ q ∈ ps, q.2 = f q.1 := fun q hq => h q (by simp [hq])
    by_cases hd : f p.1 = d
    · simp [List.filter_cons, hd, hp, ih hrest]
    · simp [List.filter_cons, hd, hp, ih hrest]

/-- The composite "pair with key, stable-sort descending, project": a
permutation of the input, sorted by the key descending, and equal-key words
keep their input order (stated as equality of the equal-key subsequences). -/
theorem sort_map_props (f : Word → Nat) (ws : List Word) (d : Nat) :
    List.Perm (sort_by_weight (ws.map fun w => (w, f w))) ws ∧
    (sort_by_weight (ws.map fun w => (w, f w))).Pairwise (fun u v => f v ≤ f u) ∧
    (sort_by_weight (ws.map fun w => (w, f w))).filter (fun w => decide (f w = d)) =
      ws.filter (fun w => decide (f w = d)) := by
  have hperm := insertionSortDesc_perm (fun p : Word × Nat => p.2) (ws.map fun w => (w, f w))
  have hmem : ∀ p ∈ insertionSortDesc (fun p : Word × Nat => p.2) (ws.map fun w => (w, f w)),
      p.2 = f p.1 := by
    intro p hp
    have hp2 : p ∈ ws.map fun w => (w, f w) := hperm.mem_iff.mp hp
    obtain ⟨w, _, rfl⟩ := List.mem_map.mp hp2
    rfl
  have hmem0 : ∀ p ∈ ws.map fun w => (w, f w), p.2 = f p.1 := by
    intro p hp2
    obtain ⟨w, _, rfl⟩ := List.mem_map.mp hp2
    rfl
  have hfst : List.map (Prod.fst ∘ fun w : Word => (w, f w)) ws = ws := by
    have hid : (Prod.fst ∘ fun w : Word => (w, f w)) = id := rfl
    rw [hid, List.map_id]
  refine ⟨?_, ?_, ?_⟩
  · have h := hperm.map Prod.fst
    rw [List.map_map, hfst] at h
    exact h
  · have hs := insertionSortDesc_sorted (fun p : Word × Nat => p.2) (ws.map fun w => (w, f w))
    have hs2 : (insertionSortDesc (fun p : Word × Nat => p.2)
        (ws.map fun w => (w, f w))).Pairwise (fun a b => f b.1 ≤ f a.1) :=
      List.Pairwise.imp_of_mem (fun ha hb hr => by
        rw [← hmem _ ha, ← hmem _ hb]; exact hr) hs
    exact List.pairwise_map.mpr hs2
  · rw [sort_by_weight, filter_map_fst _ hmem, insertionSortDesc_filter_key,
      ← filter_map_fst _ hmem0, List.map_map, hfst]

/-- Claim C3 fails as stated: in word-frequency mode no distinct-letters
secondary key is applied.  Two words tied on word frequency stay in
candidate-list order even though the later one has strictly more distinct
letters, so ties are not ordered "greater count of distinct letters first". -/
theorem ranking_tiebreak_cex :
    apply_frequency_metric (get_word_frequencies
        [("sissy".toList, 5), ("atone".toList, 5)]
        ["sissy".toList, "atone".toList]) =
      ["sissy".toList, "atone".toList] ∧
    wfLookupD [("sissy".toList, 5), ("atone".toList, 5)] "sissy".toList =
      wfLookupD [("sissy".toList, 5), ("atone".toList, 5)] "atone".toList ∧
    distinct_letters "sissy".toList < distinct_letters "atone".toList := by
  decide

/-- Claim C3 (amended): every ranking is a deterministic stable descending
sort.  In word-frequency mode the ranking is the primary sort alone — a
permutation of the candidate list, frequencies descending, ties keeping
candidate-list order — with no distinct-letters key.  In character-frequency
mode the repeat-limiting pass (relax off) is a second full stable sort by
distinct-letter count, descending, so words with an equal distinct-letter
count keep their primary-sort order; nothing depends on any other iteration
order. -/
theorem ranking_order_and_stability :
    ∀ (wf : List (Word × Nat)) (wl gs : List Word) (L : Nat) (mp : List Char) (k d : Nat),
      List.Perm (apply_frequency_metric (get_word_frequencies wf wl)) wl ∧
      (apply_frequency_metric (get_word_frequencies wf wl)).Pairwise
        (fun u v => wfLookupD wf v ≤ wfLookupD wf u) ∧
      (apply_frequency_metric (get_word_frequencies wf wl)).filter
          (fun w => decide (wfLookupD wf w = k)) =
        wl.filter (fun w => decide (wfLookupD wf w = k)) ∧
      List.Perm (limit_repeats false L mp gs) gs ∧
      (limit_repeats false L mp gs).Pairwise
        (fun u v => distinct_letters v ≤ distinct_letters u) ∧
      (limit_repeats false L mp gs).filter (fun w => decide (distinct_letters w = d)) =
        gs.filter (fun w => decide (distinct_letters w = d)) := by
  intro wf wl gs L mp k d
  have h1 := sort_map_props (wfLookupD wf) wl k
  have h2 := sort_map_props distinct_letters gs d
  have e1 : apply_frequency_metric (get_word_frequencies wf wl) =
      sort_by_weight (wl.map fun w => (w, wfLookupD wf w)) := rfl
  have e2 : limit_repeats false L mp gs =
      sort_by_weight (gs.map fun w => (w, distinct_letters w)) := by
    simp [limit_repeats]
  rw [e1, e2]
  exact ⟨h1.1, h1.2.1, h1.2.2, h2.1, h2.2.1, h2.2.2⟩

/-! The response computation, characterized pointwise. -/

theorem crGo_spec :
    ∀ (g : List Char) (answer : Word) (idx : Nat) (fb : List Char),
      crGo answer g idx = .ok fb →
      fb.length = g.length ∧
      ∀ j ch, fb[j]? = some ch → ∃ c a, g[j]? = some c ∧ answer[idx + j]? = some a ∧
        ch = (if c = a then '!' else if c ∈ answer then '?' else '.') := by
  intro g
  induction g with
  | nil =>
    intro answer idx fb h
    simp [crGo] at h
    subst h
    refine ⟨rfl, ?_⟩
    intro j ch hj
    simp at hj
  | cons c rest ih =>
    intro answer idx fb h
    unfold crGo at h
    cases ha : answer[idx]? with
    | none => rw [ha] at h; simp at h
    | some a =>
      rw [ha] at h
      cases hr : crGo answer rest (idx + 1) with
      | error e => rw [hr] at h; simp at h
      | ok rs =>
        rw [hr] at h
        simp only [Except.ok.injEq] at h
        obtain ⟨hlen, hpt⟩ := ih answer (idx + 1) rs hr
        subst h
        constructor
        · simp [hlen]
        · intro j ch hj
          cases j with
          | zero =>
            simp only [List.getElem?_cons_zero, Option.some.injEq] at hj
            refine ⟨c, a, by simp, ?_, by rw [← hj]⟩
            simpa using ha
          | succ j =>
            simp only [List.getElem?_cons_succ] at hj
            obtain ⟨c', a', h1, h2, h3⟩ := hpt j ch hj
            refine ⟨c', a', by simpa using h1, ?_, h3⟩
            rw [show idx + (j + 1) = idx + 1 + j by omega]
            exact h2

/-- Claim C4: when the answer is configured, the computed feedback string has
one symbol per guess letter, and at each position the symbol is a bang exactly
when the guess letter equals the answer letter there, otherwise a question
mark exactly when the letter occurs anywhere in the answer, otherwise a dot —
the literal definition, with no duplicate-letter count-limiting. -/
theorem feedback_literal_definition :
    ∀ (st st' : SolverState), calculate_response st = .ok st' →
      st'.match_pattern.length = st.current_guess.length ∧
      ∀ (j : Nat) (c a : Char), st.current_guess[j]? = some c → st.answer[j]? = some a →
        st'.match_pattern[j]? =
          some (if c = a then '!' else if c ∈ st.answer then '?' else '.') := by
  intro st st' h
  unfold calculate_response at h
  cases hcr : crGo st.answer st.current_guess 0 with
  | error e => rw [hcr] at h; simp at h
  | ok fb =>
    rw [hcr] at h
    simp only [Except.ok.injEq] at h
    obtain ⟨hlen, hpt⟩ := crGo_spec st.current_guess st.answer 0 fb hcr
    subst h
    refine ⟨hlen, ?_⟩
    intro j c a hc ha
    have hj : j < fb.length := by
      rw [hlen]
      exact (List.getElem?_eq_some.mp hc).1
    have hfb : fb[j]? = some fb[j] := List.getElem?_eq_getElem hj
    obtain ⟨c', a', h1, h2, h3⟩ := hpt j fb[j] hfb
    rw [Nat.zero_add] at h2
    rw [hc] at h1
    rw [ha] at h2
    simp only [Option.some.injEq] at h1 h2
    subst h1
    subst h2
    rw [hfb, h3]

/-- Witness for feedback_literal_definition at answer "ab", guess "ba". -/
theorem feedback_literal_definition_witness :
    WIT4R.match_pattern.length = WIT4.current_guess.length ∧
    ∀ (j : Nat) (c a : Char), WIT4.current_guess[j]? = some c → WIT4.answer[j]? = some a →
      WIT4R.match_pattern[j]? =
        some (if c = a then '!' else if c ∈ WIT4.answer then '?' else '.') :=
  feedback_literal_definition WIT4 WIT4R (by decide)

/-- Claim C5: in character-frequency mode with relax_repeats enabled, when
word_length minus the bang count of the most recent response is below three,
get_best_guesses returns the primary character-frequency sort unchanged (only
truncated to the display count): the repeat-limiting pass drops out. -/
theorem relax_repeats_skip :
    ∀ (st : SolverState),
      st.word_frequency = [] → st.relax_repeats = true →
      ((st.word_length : Int) - (st.match_pattern.count '!' : Int) < 3) →
      get_best_guesses st =
        (if (sort_by_weight (get_character_weights st.character_frequency
              st.wordlist)).length < 1 then .error "Out of possible words!"
         else .ok ((sort_by_weight (get_character_weights st.character_frequency
              st.wordlist)).take st.top)) := by
  intro st h1 h2 h3
  have hlr : limit_repeats st.relax_repeats st.word_length st.match_pattern
      (sort_by_weight (get_character_weights st.character_frequency st.wordlist)) =
      sort_by_weight (get_character_weights st.character_frequency st.wordlist) := by
    unfold limit_repeats
    rw [if_pos ⟨h2, h3⟩]
  unfold get_best_guesses
  rw [h1]
  simp only [ne_eq, not_true_eq_false, if_false, hlr]

/-- Witness for relax_repeats_skip: five letters, four already correct. -/
theorem relax_repeats_skip_witness :
    get_best_guesses WIT5 =
      (if (sort_by_weight (get_character_weights WIT5.character_frequency
            WIT5.wordlist)).length < 1 then .error "Out of possible words!"
       else .ok ((sort_by_weight (get_character_weights WIT5.character_frequency
            WIT5.wordlist)).take WIT5.top)) :=
  relax_repeats_skip WIT5 (by decide) (by decide) (by decide)

/-! The constraint-update loop: preservation facts. -/

theorem upStep_preserv {st st' : SolverState} {idx : Nat} {ch c : Char}
    (h : upStep st idx ch c = .ok st') :
    st'.current_guess = st.current_guess ∧ st'.answer = st.answer ∧
    st'.cells.length = st.cells.length ∧ st'.wordlist = st.wordlist := by
  unfold upStep at h
  repeat' split at h
  all_goals (first
    | (injection h with h; subst h; exact ⟨rfl, rfl, by simp [List.length_set], rfl⟩)
    | injection h)

theorem upStep_keeps_fixed {st st' : SolverState} {idx j : Nat} {ch c d : Char}
    (hj : st.cells[j]? = some (PosC.fixed d))
    (h : upStep st idx ch c = .ok st') :
    st'.cells[j]? = some (PosC.fixed d) := by
  by_cases hij : idx = j
  · subst hij
    unfold upStep at h
    rw [hj] at h
    simp only [Except.ok.injEq] at h
    subst h
    exact hj
  · unfold upStep at h
    repeat' split at h
    all_goals (first
      | (injection h with h; subst h; simp only [List.getElem?_set_ne hij]; exact hj)
      | (injection h with h; subst h; exact hj)
      | injection h)

theorem upGo_keeps_fixed :
    ∀ (fb : List Char) (st st' : SolverState) (idx j : Nat) (d : Char),
      st.cells[j]? = some (PosC.fixed d) →
      upGo st fb idx = .ok st' →
      st'.cells[j]? = some (PosC.fixed d) := by
  intro fb
  induction fb with
  | nil =>
    intro st st' idx j d hj h
    simp only [upGo, Except.ok.injEq] at h
    subst h
    exact hj
  | cons ch rest ih =>
    intro st st' idx j d hj h
    unfold upGo at h
    split at h
    · simp at h
    · rename_i c hg
      split at h
      · simp at h
      · rename_i st2 hs
        exact ih st2 st' (idx + 1) j d (upStep_keeps_fixed hj hs) h

/-- Claim C2: once the positional cell at a position is fixed to a letter, no
later invocation of the feedback interpreter — whatever the guess and the
response string — alters that cell. -/
theorem fixed_position_permanent :
    ∀ (st st' : SolverState) (i : Nat) (c : Char),
      st.cells[i]? = some (PosC.fixed c) →
      update_patterns st = .ok st' →
      st'.cells[i]? = some (PosC.fixed c) := by
  intro st st' i c hi h
  exact upGo_keeps_fixed st.match_pattern st st' 0 i c hi h

/-- Witness for fixed_position_permanent: a fixed first cell survives a
response that marks it present-elsewhere. -/
theorem fixed_position_permanent_witness :
    WIT2R.cells[0]? = some (PosC.fixed 'a') :=
  fixed_position_permanent WIT2 WIT2R 0 'a' (by decide) (by decide)

/-! Claim C6: no length validation in the feedback interpreter. -/

theorem upGo_cons (st : SolverState) (ch : Char) (rest : List Char) (idx : Nat)
    (c : Char) (hg : st.current_guess[idx]? = some c) :
    upGo st (ch :: rest) idx =
      match upStep st idx ch c with
      | .error e => .error e
      | .ok st2 => upGo st2 rest (idx + 1) := by
  conv_lhs => unfold upGo
  rw [hg]

theorem upStep_ok {st : SolverState} {idx : Nat} {ch c : Char}
    (hv : ch = '.' ∨ ch = '?' ∨ ch = '!') (hidx : idx < st.cells.length) :
    ∃ st', upStep st idx ch c = .ok st' := by
  have hcell : st.cells[idx]? = some st.cells[idx] := List.getElem?_eq_getElem hidx
  unfold upStep
  rw [hcell]
  cases hc : st.cells[idx] with
  | unconstrained =>
    rcases hv with h | h | h <;> subst h <;> simp
  | fixed d => simp
  | forbid s =>
    rcases hv with h | h | h <;> subst h <;> simp

/-- Success of the update loop whenever the remaining response symbols are
legal and the positions stay inside both the guess and the pattern. -/
theorem upGo_ok :
    ∀ (fb : List Char) (st : SolverState) (idx : Nat),
      (∀ ch ∈ fb, ch = '.' ∨ ch = '?' ∨ ch = '!') →
      idx + fb.length ≤ st.current_guess.length →
      idx + fb.length ≤ st.cells.length →
      ∃ st', upGo st fb idx = .ok st' := by
  intro fb
  induction fb with
  | nil => intro st idx _ _ _; exact ⟨st, rfl⟩
  | cons ch rest ih =>
    intro st idx hv hg hc
    have hgidx : idx < st.current_guess.length := by
      simp only [List.length_cons] at hg; omega
    have hcidx : idx < st.cells.length := by
      simp only [List.length_cons] at hc; omega
    have hc0 : st.current_guess[idx]? = some st.current_guess[idx] :=
      List.getElem?_eq_getElem hgidx
    obtain ⟨st2, hs⟩ := upStep_ok (c := st.current_guess[idx]) (hv ch (by simp)) hcidx
    have hpres := upStep_preserv hs
    obtain ⟨st', h'⟩ := ih st2 (idx + 1)
      (fun x hx => hv x (by simp [hx]))
      (by rw [hpres.1]; simp only [List.length_cons] at hg; omega)
      (by rw [hpres.2.2.1]; simp only [List.length_cons] at hc; omega)
    refine ⟨st', ?_⟩
    rw [upGo_cons st ch rest idx _ hc0, hs]
    exact h'

/-- Claim C6 fails as stated: a response string of length two against a
five-letter guess — a length mismatch — is processed to completion with no
error of any kind. -/
theorem invalid_feedback_cex :
    (update_patterns ST6).map (fun s => (s.include_letters, s.exclude_letters)) =
      .ok (['b', 'a'], []) ∧
    ST6.match_pattern.length ≠ ST6.current_guess.length := by
  decide

/-- Claim C6 (amended): the feedback interpreter performs no length check and
defines no invalid-feedback condition covering mismatched lengths.  Any
response over the three legal symbols that is no longer than the guess and no
longer than the positional pattern is accepted without error — in particular a
response shorter than the guess is silently processed over its own length.
An error can arise only from a symbol outside the alphabet at a not-yet-fixed
position (ValueError), or, for a response running past the guess, from the
out-of-range guess index (IndexError), not from a length comparison. -/
theorem update_patterns_no_length_check :
    ∀ (st : SolverState),
      (∀ ch ∈ st.match_pattern, ch = '.' ∨ ch = '?' ∨ ch = '!') →
      st.match_pattern.length ≤ st.current_guess.length →
      st.match_pattern.length ≤ st.cells.length →
      ∃ st', update_patterns st = .ok st' := by
  intro st hv hg hc
  exact upGo_ok st.match_pattern st 0 hv (by omega) (by omega)

/-- Witness for update_patterns_no_length_check at the mismatched-length
state ST6. -/
theorem update_patterns_no_length_check_witness :
    ∃ st', update_patterns ST6 = .ok st' :=
  update_patterns_no_length_check ST6 (by decide) (by decide) (by decide)

/-! Claim C1: soundness of the accumulated constraint state. -/

theorem mem_sinsert {x c : Char} {l : List Char} :
    x ∈ sinsert c l ↔ x = c ∨ x ∈ l := by
  unfold sinsert
  split
  · rename_i hmem
    constructor
    · exact fun h => Or.inr h
    · rintro (rfl | h)
      · exact hmem
      · exact h
  · exact List.mem_cons

theorem forall2_getElem {R : PosC → Char → Prop} :
    ∀ {l₁ : List PosC} {l₂ : List Char} {i : Nat} {x : PosC} {y : Char},
      List.Forall₂ R l₁ l₂ → l₁[i]? = some x → l₂[i]? = some y → R x y := by
  intro l₁ l₂ i x y h
  induction h generalizing i with
  | nil => intro h1 _; simp at h1
  | cons hr _ ih =>
    intro h1 h2
    cases i with
    | zero =>
      simp only [List.getElem?_cons_zero, Option.some.injEq] at h1 h2
      subst h1; subst h2
      exact hr
    | succ i =>
      simp only [List.getElem?_cons_succ] at h1 h2
      exact ih h1 h2

theorem forall2_set {R : PosC → Char → Prop} :
    ∀ {l₁ : List PosC} {l₂ : List Char} {i : Nat} {b : PosC} {y : Char},
      List.Forall₂ R l₁ l₂ → l₂[i]? = some y → R b y →
      List.Forall₂ R (l₁.set i b) l₂ := by
  intro l₁ l₂ i b y h
  induction h generalizing i with
  | nil => intro h1 _; simp at h1
  | cons hr htail ih =>
    intro h1 hb
    cases i with
    | zero =>
      simp only [List.getElem?_cons_zero, Option.some.injEq] at h1
      subst h1
      exact List.Forall₂.cons hb htail
    | succ i =>
      simp only [List.getElem?_cons_succ] at h1
      simp only [List.set_cons_succ]
      exact List.Forall₂.cons hr (ih h1 hb)

theorem forall2_replicate_cellsound (w : Word) :
    List.Forall₂ CellSound (List.replicate w.length PosC.unconstrained) w := by
  induction w with
  | nil => exact List.Forall₂.nil
  | cons a w ih =>
    simp only [List.length_cons, List.replicate_succ]
    exact List.Forall₂.cons True.intro ih

theorem upStep_sound {answer : Word} {st st' : SolverState} {idx : Nat} {ch c a : Char}
    (hs : Sound answer st) (ha : answer[idx]? = some a)
    (hch : ch = (if c = a then '!' else if c ∈ answer then '?' else '.'))
    (h : upStep st idx ch c = .ok st') : Sound answer st' := by
  have hcells : ∀ s, st.cells[idx]? = some (PosC.forbid s) → a ∉ s := fun s hcell =>
    forall2_getElem hs.sound_cells hcell ha
  unfold upStep at h
  by_cases hca : c = a
  · rw [if_pos hca] at hch
    subst hch
    simp only [Char.reduceEq, reduceIte] at h
    repeat' split at h
    all_goals first
      | (injection h with h; subst h; exact hs)
      | (injection h with h; subst h;
         exact ⟨hs.ans, hs.excl, fun x hx => hs.incl x (List.mem_filter.mp hx).1,
                forall2_set hs.sound_cells ha hca.symm⟩)
      | exact absurd h (by simp)
  · rw [if_neg hca] at hch
    have hane : a ≠ c := fun hx => hca hx.symm
    by_cases hcin : c ∈ answer
    · rw [if_pos hcin] at hch
      subst hch
      simp only [Char.reduceEq, reduceIte] at h
      repeat' split at h
      all_goals first
        | (injection h with h; subst h; exact hs)
        | (injection h with h; subst h;
           refine ⟨hs.ans, hs.excl, ?_, ?_⟩
           · intro x hx
             first
               | exact hs.incl x hx
               | (rcases mem_sinsert.mp hx with rfl | hx2
                  · exact hcin
                  · exact hs.incl x hx2)
           · refine forall2_set hs.sound_cells ha ?_
             show a ∉ _
             first
               | exact hcells _ (by assumption)
               | (intro hmem
                  rcases List.mem_cons.mp hmem with h' | h'
                  · exact hane h'
                  · first
                    | exact absurd h' (by simp)
                    | exact hcells _ (by assumption) h')
           )
        | exact absurd h (by simp)
    · rw [if_neg hcin] at hch
      subst hch
      simp only [Char.reduceEq, reduceIte] at h
      repeat' split at h
      all_goals first
        | (injection h with h; subst h; exact hs)
        | (injection h with h; subst h;
           refine ⟨hs.ans, ?_, hs.incl, hs.sound_cells⟩
           intro x hx
           rcases mem_sinsert.mp hx with rfl | hx2
           · exact hcin
           · exact hs.excl x hx2)
        | exact absurd h (by simp)

theorem upGo_sound :
    ∀ (fb : List Char) (st st' : SolverState) (idx : Nat) (answer : Word),
      Sound answer st →
      (∀ (j : Nat) (ch : Char), fb[j]? = some ch →
        ∃ c a, st.current_guess[idx + j]? = some c ∧ answer[idx + j]? = some a ∧
          ch = (if c = a then '!' else if c ∈ answer then '?' else '.')) →
      upGo st fb idx = .ok st' → Sound answer st' := by
  intro fb
  induction fb with
  | nil =>
    intro st st' idx answer hs _ h
    simp only [upGo, Except.ok.injEq] at h
    subst h
    exact hs
  | cons ch rest ih =>
    intro st st' idx answer hs hfb h
    obtain ⟨c, a, hc, ha, hch⟩ := hfb 0 ch (by simp)
    rw [Nat.add_zero] at hc ha
    rw [upGo_cons st ch rest idx c hc] at h
    cases hstep : upStep st idx ch c with
    | error e => rw [hstep] at h; simp at h
    | ok st2 =>
      rw [hstep] at h
      have h2 : upGo st2 rest (idx + 1) = .ok st' := h
      have hpres := upStep_preserv hstep
      refine ih st2 st' (idx + 1) answer (upStep_sound hs ha hch hstep) ?_ h2
      intro j ch' hj
      obtain ⟨c', a', hc', ha', hch'⟩ := hfb (j + 1) ch' (by simpa using hj)
      refine ⟨c', a', ?_, ?_, hch'⟩
      · rw [hpres.1, show idx + 1 + j = idx + (j + 1) by omega]
        exact hc'
      · rw [show idx + 1 + j = idx + (j + 1) by omega]
        exact ha'

theorem observe_feedback_sound {answer : Word} {st st' : SolverState} {g : Word}
    (hs : Sound answer st) (h : observe_feedback st g = .ok st') : Sound answer st' := by
  unfold observe_feedback at h
  cases hcr : crGo st.answer g 0 with
  | error e => rw [hcr] at h; simp at h
  | ok fb =>
    rw [hcr] at h
    have h2 : update_patterns {st with current_guess := g, match_pattern := fb} = .ok st' := h
    rw [hs.ans] at hcr
    obtain ⟨hlen, hpt⟩ := crGo_spec g answer 0 fb hcr
    have hs2 : Sound answer {st with current_guess := g, match_pattern := fb} :=
      ⟨hs.ans, hs.excl, hs.incl, hs.sound_cells⟩
    refine upGo_sound fb _ st' 0 answer hs2 ?_ h2
    intro j ch hj
    obtain ⟨c, a, hc, ha, hch⟩ := hpt j ch hj
    exact ⟨c, a, by simpa using hc, by simpa using ha, hch⟩

theorem runFeedbacks_sound :
    ∀ (gs : List Word) (st st' : SolverState) (answer : Word),
      Sound answer st → runFeedbacks st gs = .ok st' → Sound answer st' := by
  intro gs
  induction gs with
  | nil =>
    intro st st' answer hs h
    simp only [runFeedbacks, Except.ok.injEq] at h
    subst h
    exact hs
  | cons g gs ih =>
    intro st st' answer hs h
    unfold runFeedbacks at h
    split at h
    · simp at h
    · rename_i st2 hobs
      exact ih st2 st' answer (observe_feedback_sound hs hobs) h

theorem cellMatch_of_cellSound {cell : PosC} {a : Char} (h : CellSound cell a) :
    cellMatch cell a = true := by
  cases cell with
  | unconstrained => rfl
  | fixed c => simpa [cellMatch] using h
  | forbid s => simpa [cellMatch] using h

theorem stage1keep_answer {answer : Word} {ex inc : List Char}
    (hex : ∀ c ∈ ex, c ∉ answer) (hinc : ∀ c ∈ inc, c ∈ answer) :
    stage1keep ex inc answer = true := by
  unfold stage1keep
  have h1 : ex.any (fun c => decide (c ∈ answer)) = false := by
    rw [List.any_eq_false]
    intro c hc
    simp [hex c hc]
  have h2 : inc.all (fun c => decide (c ∈ answer)) = true := by
    rw [List.all_eq_true]
    intro c hc
    simp [hinc c hc]
  rw [h1, h2]
  simp

theorem regexMatch_answer {answer : Word} {cells : List PosC}
    (h : List.Forall₂ CellSound cells answer) : regexMatch cells answer = true := by
  unfold regexMatch
  rw [Bool.and_eq_true]
  constructor
  · simp [h.length_eq]
  · rw [List.all_eq_true]
    intro p hp
    obtain ⟨cell, x⟩ := p
    exact cellMatch_of_cellSound ((List.forall₂_iff_zip.mp h).2 hp)

/-- Claim C1: filter soundness.  For any answer of the configured length, any
constraint state accumulated from the initial state purely by the engine
computing responses against that same answer and interpreting them
(runFeedbacks = calculate_response + update_patterns per guess, for an
arbitrary guess sequence), and any candidate list containing the answer,
apply_patterns keeps the answer: it is never falsely rejected. -/
theorem filter_soundness :
    ∀ (L maxg top : Nat) (relax : Bool) (answer ig : Word) (wl0 : List Word)
      (cf : List (Char × Nat)) (gs : List Word) (st : SolverState) (wl : List Word),
      answer.length = L →
      runFeedbacks (mkInitState L answer ig relax maxg top wl0 cf) gs = .ok st →
      answer ∈ wl →
      answer ∈ (apply_patterns {st with wordlist := wl}).wordlist := by
  intro L maxg top relax answer ig wl0 cf gs st wl hlen hrun hmem
  have hs0 : Sound answer (mkInitState L answer ig relax maxg top wl0 cf) := by
    refine ⟨rfl, ?_, ?_, ?_⟩
    · intro c hc
      simp [mkInitState] at hc
    · intro c hc
      simp [mkInitState] at hc
    · simp only [mkInitState]
      rw [← hlen]
      exact forall2_replicate_cellsound answer
  have hs := runFeedbacks_sound gs _ st answer hs0 hrun
  unfold apply_patterns
  rw [List.mem_dedup, List.mem_filter, List.mem_filter]
  exact ⟨⟨hmem, stage1keep_answer hs.excl hs.incl⟩, regexMatch_answer hs.sound_cells⟩

/-- Witness for filter_soundness: answer "ab", one observed guess "ba",
candidate list containing the answer. -/
theorem filter_soundness_witness :
    "ab".toList ∈
      (apply_patterns {WIT1R with wordlist := ["ab".toList, "ba".toList]}).wordlist :=
  filter_soundness 2 6 5 false "ab".toList [] [] [] ["ba".toList] WIT1R
    ["ab".toList, "ba".toList] (by decide) (by decide) (by decide)

/-! Claims C7-C10. -/

/-- Claim C7 fails as stated: the two-turn stream "ab"/"?." then "ax"/".."
puts the letter a in include_letters and exclude_letters simultaneously, yet
both update_patterns calls succeed — the interpreter raises no input error. -/
theorem contradiction_cex :
    (c7stream.map fun s =>
      (s.include_letters.contains 'a', s.exclude_letters.contains 'a')) =
      .ok (true, true) := by
  decide

/-- Claim C7 (amended): the implementation performs no contradictory-feedback
check: a stream that places a letter in both include_letters and
exclude_letters is accepted without an input error (see the counterexample),
and the contradiction is resolved silently downstream — once a letter is in
both sets the filter rejects every candidate (a word containing the letter
fails the exclude stage, a word without it fails the include stage), so the
candidate list empties and only the generic out-of-candidates error can
surface later, at ranking time. -/
theorem contradiction_unchecked :
    ∀ (st : SolverState) (c : Char),
      c ∈ st.include_letters → c ∈ st.exclude_letters →
      (apply_patterns st).wordlist = [] := by
  intro st c hin hex
  have hfil : st.wordlist.filter
      (fun w => stage1keep st.exclude_letters st.include_letters w) = [] := by
    rw [List.filter_eq_nil_iff]
    intro w _
    have hfalse : stage1keep st.exclude_letters st.include_letters w = false := by
      unfold stage1keep
      have hneex : st.exclude_letters.isEmpty = false := by
        cases hEL : st.exclude_letters
        · rw [hEL] at hex; simp at hex
        · rfl
      have hnein : st.include_letters.isEmpty = false := by
        cases hIL : st.include_letters
        · rw [hIL] at hin; simp at hin
        · rfl
      by_cases hcw : c ∈ w
      · have hany : st.exclude_letters.any (fun x => decide (x ∈ w)) = true := by
          rw [List.any_eq_true]
          exact ⟨c, hex, by simpa using hcw⟩
        simp [hany, hneex]
      · have hall : st.include_letters.all (fun x => decide (x ∈ w)) = false := by
          rw [List.all_eq_false]
          exact ⟨c, hin, by simpa using hcw⟩
        split
        · rfl
        · simp [hnein, hall]
    simp [hfalse]
  unfold apply_patterns
  rw [hfil]
  rfl

/-- Witness for contradiction_unchecked: with a in both letter sets, the
filter empties a two-word candidate list. -/
theorem contradiction_unchecked_witness :
    (apply_patterns WIT7).wordlist = [] :=
  contradiction_unchecked WIT7 'a' (by decide) (by decide)

/-- Claim C8 fails as stated: with an initial guess configured, construction
over a word source with no words of the configured length succeeds — no
EmptyVocabulary (or any other) error is raised. -/
theorem empty_vocab_cex :
    (solverInit 5 [] "xyzzy".toList "abcde".toList none [] false 6 5).map
      (fun st => st.wordlist) = .ok [] := by
  decide

/-- Claim C8 (amended): construction performs no empty-vocabulary check, and
no EmptyVocabulary condition exists.  When the filtered word list is empty:
with an initial guess configured, construction succeeds, leaving an empty
candidate list; without one, construction fails — but with the same generic
ValueError("Out of possible words!") that ranking raises during play (the
out-of-candidates condition), produced while deriving the opening guess, not
a distinct construction-time error. -/
theorem empty_vocab_no_check :
    ∀ (L : Nat) (raw : List Word) (answer ig : Word)
      (ct : Option (List (Char × Nat))) (wt : List (Word × Nat))
      (relax : Bool) (maxg top : Nat),
      load_wordlist L raw = [] →
      (ig ≠ [] → ∃ st, solverInit L raw answer ig ct wt relax maxg top = .ok st ∧
        st.wordlist = []) ∧
      (ig = [] → solverInit L raw answer ig ct wt relax maxg top =
        .error "Out of possible words!") := by
  intro L raw answer ig ct wt relax maxg top hwl
  constructor
  · intro hig
    unfold solverInit solverInitCore
    rw [if_neg (show ¬ (mkInitState L answer ig relax maxg top (load_wordlist L raw)
        (chosen_char_frequency ct (load_wordlist L raw))).current_guess = [] from hig)]
    exact ⟨_, rfl, hwl⟩
  · intro hig
    subst hig
    have hbest : get_best_guesses (mkInitState L answer [] relax maxg top
        (load_wordlist L raw) (chosen_char_frequency ct (load_wordlist L raw))) =
        .error "Out of possible words!" := by
      unfold get_best_guesses mkInitState
      simp only
      rw [hwl]
      simp [get_character_weights, sort_by_weight, insertionSortDesc, limit_repeats]
    unfold solverInit solverInitCore
    split
    · rw [hbest]
    · rename_i hne
      exact absurd rfl hne

/-- Witness for empty_vocab_no_check: a five-letter solver over an empty word
source, once with and once without an initial guess. -/
theorem empty_vocab_no_check_witness :
    (("abcde".toList : Word) ≠ [] →
      ∃ st, solverInit 5 [] "xyzzy".toList "abcde".toList none [] false 6 5 = .ok st ∧
        st.wordlist = []) ∧
    (("abcde".toList : Word) = [] →
      solverInit 5 [] "xyzzy".toList "abcde".toList none [] false 6 5 =
        .error "Out of possible words!") :=
  empty_vocab_no_check 5 [] "xyzzy".toList "abcde".toList none [] false 6 5 (by decide)

/-- Claim C9: with no initial guess configured, the opening guess is rank 0 of
get_best_guesses over the freshly loaded candidate list with the
word-frequency table still empty — character-frequency mode — whatever
word-frequency table is configured: the ranking below does not mention the
table, which is installed only afterwards. -/
theorem initial_guess_char_mode :
    ∀ (L : Nat) (raw : List Word) (answer : Word) (ct : Option (List (Char × Nat)))
      (wt : List (Word × Nat)) (relax : Bool) (maxg top : Nat) (st : SolverState),
      solverInit L raw answer [] ct wt relax maxg top = .ok st →
      ∃ rest, get_best_guesses (mkInitState L answer [] relax maxg top
          (load_wordlist L raw) (chosen_char_frequency ct (load_wordlist L raw))) =
        .ok (st.current_guess :: rest) := by
  intro L raw answer ct wt relax maxg top st h
  unfold solverInit solverInitCore at h
  split at h
  · split at h
    · simp at h
    · simp at h
    · rename_i g rest heq
      injection h with h
      subst h
      exact ⟨rest, heq⟩
  · rename_i hne
    exact absurd rfl hne

/-- Witness for initial_guess_char_mode: two-letter vocabulary, a
word-frequency table configured, opening guess taken from the
character-frequency ranking. -/
theorem initial_guess_char_mode_witness :
    ∃ rest, get_best_guesses (mkInitState 2 "zz".toList [] false 6 5
        (load_wordlist 2 ["ab".toList, "cd".toList])
        (chosen_char_frequency none (load_wordlist 2 ["ab".toList, "cd".toList]))) =
      .ok (WIT9R.current_guess :: rest) :=
  initial_guess_char_mode 2 ["ab".toList, "cd".toList] "zz".toList none
    [("zz".toList, 9)] false 6 5 WIT9R (by decide)

/-- Claim C10 fails as stated: a programmatically supplied guess that equals
the configured answer but is absent from the candidate list does not fail at
the removal step — the turn raises AnswerFound before removal is reached. -/
theorem guess_removal_cex :
    ST10.current_guess ∉ ST10.wordlist ∧ loop_once ST10 = .error "AnswerFound" := by
  decide

/-- Claim C10 (amended): automated mode performs no prior validation of a
programmatically supplied guess (no length or membership check), and the game
loop removes the played guess with the present-or-ValueError list removal; a
guess absent from the candidate list therefore makes the turn fail with the
unhandled ValueError at the removal step, provided the turn reaches that step:
when the computed feedback is not all-correct and the attempt budget is not
exhausted.  (A guess equal to the configured answer instead raises AnswerFound
before removal, as the counterexample shows.) -/
theorem guess_removal_amended :
    ∀ (st : SolverState) (fb : List Char),
      st.current_guess ≠ [] → st.answer ≠ [] →
      crGo st.answer st.current_guess 0 = .ok fb →
      fb ≠ List.replicate st.word_length '!' →
      st.attempt + 1 < st.max_guesses →
      st.current_guess ∉ st.wordlist →
      loop_once st = .error "ValueError: not in list" := by
  intro st fb h1 h2 hcr hfb hat hmem
  have hat2 : ¬ (st.max_guesses ≤ st.attempt + 1) := by omega
  simp [loop_once, get_guess_and_response, calculate_response, test_if_complete,
    remove_guess, hcr, h1, h2, hfb, hat2, hmem]

/-- Witness for guess_removal_amended: guess "abcdf" against answer "abcde",
with "abcdf" absent from the candidate list. -/
theorem guess_removal_amended_witness :
    loop_once WIT10 = .error "ValueError: not in list" :=
  guess_removal_amended WIT10 "!!!!.".toList (by decide) (by decide) (by decide)
    (by decide) (by decide) (by decide)
